import Mathlib

/-!
Verification of the NAB simple-stats streaming detectors
(`nab/detectors/simple_stats/simple_stats_detectors.py`).

We shallowly embed the Python code over an idealised float type `EFloat`:
finite values are exact reals, and the IEEE special values `nan`, `inf`,
`ninf` are explicit constructors.  Python raises on division by (exactly)
zero and on `math.sqrt` of a negative number, so those two operations
return `Option EFloat`, with `none` standing for the raised exception.
Arithmetic on finite values is exact real arithmetic (no rounding or
overflow), the standard idealisation for specifications of this kind.
-/

/-- Idealised Python float: a real number or one of the IEEE special
values `nan`, `+inf`, `-inf`. -/
inductive EFloat : Type where
  | nan : EFloat
  | inf : EFloat
  | ninf : EFloat
  | fin : ℝ → EFloat

namespace EFloat

/-- Python `math.isfinite`. -/
def isfinite : EFloat → Bool
  | .fin _ => true
  | _ => false

/-- Python float negation. -/
def neg : EFloat → EFloat
  | .nan => .nan
  | .inf => .ninf
  | .ninf => .inf
  | .fin a => .fin (-a)

/-- Python float `abs`. -/
def eabs : EFloat → EFloat
  | .nan => .nan
  | .inf => .inf
  | .ninf => .inf
  | .fin a => .fin |a|

/-- Python float addition (IEEE special-value rules, exact on finites). -/
def add : EFloat → EFloat → EFloat
  | .nan, _ => .nan
  | _, .nan => .nan
  | .inf, .ninf => .nan
  | .ninf, .inf => .nan
  | .inf, _ => .inf
  | _, .inf => .inf
  | .ninf, _ => .ninf
  | _, .ninf => .ninf
  | .fin a, .fin b => .fin (a + b)

/-- Python float subtraction. -/
def sub (a b : EFloat) : EFloat := add a (neg b)

/-- Python float multiplication (IEEE special-value rules; `inf * 0` is
`nan`, exact on finites). -/
noncomputable def mul : EFloat → EFloat → EFloat
  | .nan, _ => .nan
  | _, .nan => .nan
  | .inf, .inf => .inf
  | .inf, .ninf => .ninf
  | .ninf, .inf => .ninf
  | .ninf, .ninf => .inf
  | .inf, .fin b => if b = 0 then .nan else if 0 < b then .inf else .ninf
  | .ninf, .fin b => if b = 0 then .nan else if 0 < b then .ninf else .inf
  | .fin a, .inf => if a = 0 then .nan else if 0 < a then .inf else .ninf
  | .fin a, .ninf => if a = 0 then .nan else if 0 < a then .ninf else .inf
  | .fin a, .fin b => .fin (a * b)

/-- Python float division.  `none` models the `ZeroDivisionError` raised
when the divisor is (exactly) zero; otherwise IEEE rules apply. -/
noncomputable def ediv : EFloat → EFloat → Option EFloat
  | a, .fin b =>
      if b = 0 then none
      else
        match a with
        | .nan => some .nan
        | .inf => some (if 0 < b then .inf else .ninf)
        | .ninf => some (if 0 < b then .ninf else .inf)
        | .fin a0 => some (.fin (a0 / b))
  | _, .nan => some .nan
  | .nan, .inf => some .nan
  | .inf, .inf => some .nan
  | .ninf, .inf => some .nan
  | .fin _, .inf => some (.fin 0)
  | .nan, .ninf => some .nan
  | .inf, .ninf => some .nan
  | .ninf, .ninf => some .nan
  | .fin _, .ninf => some (.fin 0)

/-- Python `math.sqrt`.  `none` models the `ValueError` raised on a
negative (finite or `-inf`) argument; `sqrt nan = nan`, `sqrt inf = inf`. -/
noncomputable def esqrt : EFloat → Option EFloat
  | .nan => some .nan
  | .inf => some .inf
  | .ninf => none
  | .fin a => if a < 0 then none else some (.fin (Real.sqrt a))

/-- Python float `<` comparison (`nan` compares false with everything). -/
noncomputable def flt : EFloat → EFloat → Bool
  | .nan, _ => false
  | _, .nan => false
  | .inf, _ => false
  | .ninf, .inf => true
  | .ninf, .ninf => false
  | .ninf, .fin _ => true
  | .fin _, .inf => true
  | .fin _, .ninf => false
  | .fin a, .fin b => decide (a < b)

end EFloat

/-- Python `sum(...)` over a list of floats: left fold of `+` starting
from `0`. -/
def esum (l : List EFloat) : EFloat := l.foldl EFloat.add (.fin 0)

/-- Python `max(...)` over a nonempty sequence: keep the current maximum
unless a later element compares strictly greater.  `none` models the
`ValueError` raised on an empty sequence. -/
noncomputable def pyMax : List EFloat → Option EFloat
  | [] => none
  | h :: t => some (t.foldl (fun acc x => if EFloat.flt acc x then x else acc) h)

/-- The scale guard of `_logisticScore`: `if scale is None or scale <= 0:
scale = 1.0`. -/
noncomputable def effScale : Option ℝ → ℝ
  | none => 1
  | some s0 => if s0 ≤ 0 then 1 else s0

/-- Embedding of `_logisticScore(metric, center, scale)`.  The `metric`
argument may be `None` (modelled by `Option`); `center` and `scale` are
configuration floats (always finite in the embedding, `scale` optional). -/
noncomputable def logisticScore (metric : Option EFloat) (center : ℝ)
    (scale : Option ℝ) : ℝ :=
  match metric with
  | none => 0
  | some m =>
    match m with
    | .nan => 0
    | .inf => 0
    | .ninf => 0
    | .fin v =>
      let x := (v - center) / effScale scale
      if 60 ≤ x then 1
      else if x ≤ -60 then 0
      else 1 / (1 + Real.exp (-x))

/-- Embedding of `collections.deque(maxlen=cap)` append: if the deque is
full the oldest elements are evicted from the left so that the length
never exceeds `cap`. -/
def pushWin (cap : ℕ) (w : List EFloat) (v : EFloat) : List EFloat :=
  if w.length + 1 ≤ cap then w ++ [v] else (w ++ [v]).drop (w.length + 1 - cap)

/-- Configuration of `ZScoreDetector` (fields read from the environment at
construction; `probationaryPeriod` is supplied by the harness). -/
structure ZCfg where
  windowSize : ℕ
  threshold : ℝ
  scale : ℝ
  minStd : ℝ
  probationaryPeriod : ℕ

/-- Configuration of `EwmaDetector`. -/
structure ECfg where
  alpha : ℝ
  threshold : ℝ
  scale : ℝ
  minStd : ℝ
  probationaryPeriod : ℕ

/-- Configuration of `AdaptiveThresholdDetector`. -/
structure ACfg where
  windowSize : ℕ
  sensitivity : ℝ
  scale : ℝ
  minDev : ℝ
  probationaryPeriod : ℕ

/-- Mutable state of the two window-based detectors: the deque `window`
and the private record counter. -/
structure WinState where
  window : List EFloat
  recordIndex : ℕ

/-- Mutable state of `EwmaDetector`: running mean (`None` before the
first record), running variance estimate, and the record counter. -/
structure EwmaState where
  ewma : Option EFloat
  variance : EFloat
  recordIndex : ℕ

/-- Initial state of a window-based detector. -/
def winInit : WinState := ⟨[], 0⟩

/-- Initial state of `EwmaDetector`. -/
def ewmaInit : EwmaState := ⟨none, .fin 0, 0⟩

/-- The score-computation half of `ZScoreDetector.handleRecord` (lines
65-73 of the source, before the `window.append`): windowed mean,
population variance, floored std, absolute z-score, logistic transform.
The statistics are read from the state `s` only, before the current
`value` is pushed.  `none` models a raised exception. -/
noncomputable def zScoreOnly (cfg : ZCfg) (s : WinState) (value : EFloat) :
    Option ℝ :=
  if cfg.windowSize ≤ s.window.length then do
    let n : EFloat := .fin (s.window.length : ℝ)
    let mean ← (esum s.window).ediv n
    let variance ←
      (esum (s.window.map fun x => (x.sub mean).mul (x.sub mean))).ediv n
    let std0 ← variance.esqrt
    let std := if EFloat.flt std0 (.fin cfg.minStd) then EFloat.fin cfg.minStd else std0
    let q ← (value.sub mean).ediv std
    pure (logisticScore (some q.eabs) cfg.threshold (some cfg.scale))
  else pure (0 : ℝ)

/-- Embedding of `ZScoreDetector.handleRecord`: compute the score from
the pre-push window, append `value` (evicting the oldest element when
full), zero the score during probation, bump the counter. -/
noncomputable def ZScoreDetector.handleRecord (cfg : ZCfg) (s : WinState)
    (value : EFloat) : Option (ℝ × WinState) :=
  (zScoreOnly cfg s value).bind fun score =>
    some (if s.recordIndex < cfg.probationaryPeriod then (0 : ℝ) else score,
      ⟨pushWin cfg.windowSize s.window value, s.recordIndex + 1⟩)

/-- The score-computation half of `EwmaDetector.handleRecord`: reads only
the pre-update `ewma` and `variance` (score `0.0` on the very first
record, when `ewma` is still `None`). -/
noncomputable def eScoreOnly (cfg : ECfg) (s : EwmaState) (value : EFloat) :
    Option ℝ :=
  match s.ewma with
  | none => pure (0 : ℝ)
  | some w => do
      let diff := value.sub w
      let std0 ← s.variance.esqrt
      let std := if EFloat.flt std0 (.fin cfg.minStd) then EFloat.fin cfg.minStd else std0
      let q ← diff.eabs.ediv std
      pure (logisticScore (some q) cfg.threshold (some cfg.scale))

/-- The state-update half of `EwmaDetector.handleRecord`: on the first
record set `ewma = value, variance = 0`; afterwards
`ewma += alpha * diff` and
`variance = (1 - alpha) * (variance + alpha * diff * diff)`, with `diff`
taken against the pre-update `ewma`. -/
noncomputable def eUpdate (cfg : ECfg) (s : EwmaState) (value : EFloat) :
    EwmaState :=
  match s.ewma with
  | none => ⟨some value, .fin 0, s.recordIndex + 1⟩
  | some w =>
      ⟨some (w.add ((EFloat.fin cfg.alpha).mul (value.sub w))),
       (EFloat.fin (1 - cfg.alpha)).mul
         (s.variance.add
           (((EFloat.fin cfg.alpha).mul (value.sub w)).mul (value.sub w))),
       s.recordIndex + 1⟩

/-- Embedding of `EwmaDetector.handleRecord`: score against the previous
EWMA prediction, then fold the current value into the state; zero the
score during probation. -/
noncomputable def EwmaDetector.handleRecord (cfg : ECfg) (s : EwmaState)
    (value : EFloat) : Option (ℝ × EwmaState) :=
  (eScoreOnly cfg s value).bind fun score =>
    some (if s.recordIndex < cfg.probationaryPeriod then (0 : ℝ) else score,
      eUpdate cfg s value)

/-- The score-computation half of
`AdaptiveThresholdDetector.handleRecord` (lines 159-166 of the source):
windowed mean, floored maximum absolute deviation, absolute ratio,
logistic transform — all from the pre-push window. -/
noncomputable def aScoreOnly (cfg : ACfg) (s : WinState) (value : EFloat) :
    Option ℝ :=
  if cfg.windowSize ≤ s.window.length then do
    let n : EFloat := .fin (s.window.length : ℝ)
    let mean ← (esum s.window).ediv n
    let maxDev0 ← pyMax (s.window.map fun x => (x.sub mean).eabs)
    let maxDev := if EFloat.flt maxDev0 (.fin cfg.minDev) then EFloat.fin cfg.minDev else maxDev0
    let q ← ((value.sub mean).eabs).ediv maxDev
    pure (logisticScore (some q) cfg.sensitivity (some cfg.scale))
  else pure (0 : ℝ)

/-- Embedding of `AdaptiveThresholdDetector.handleRecord`. -/
noncomputable def AdaptiveThresholdDetector.handleRecord (cfg : ACfg)
    (s : WinState) (value : EFloat) : Option (ℝ × WinState) :=
  (aScoreOnly cfg s value).bind fun score =>
    some (if s.recordIndex < cfg.probationaryPeriod then (0 : ℝ) else score,
      ⟨pushWin cfg.windowSize s.window value, s.recordIndex + 1⟩)

/-- Drive a detector step function over a whole input stream, collecting
the scores in order; `none` if any call raises. -/
def runDet {S : Type} (step : S → EFloat → Option (ℝ × S)) :
    S → List EFloat → Option (List ℝ × S)
  | s, [] => some ([], s)
  | s, v :: rest => do
      let p ← step s v
      let r ← runDet step p.2 rest
      pure (p.1 :: r.1, r.2)

/-- Run `ZScoreDetector` from its initial state. -/
noncomputable def zRun (cfg : ZCfg) (xs : List EFloat) :
    Option (List ℝ × WinState) :=
  runDet (ZScoreDetector.handleRecord cfg) winInit xs

/-- Run `EwmaDetector` from its initial state. -/
noncomputable def eRun (cfg : ECfg) (xs : List EFloat) :
    Option (List ℝ × EwmaState) :=
  runDet (EwmaDetector.handleRecord cfg) ewmaInit xs

/-- Run `AdaptiveThresholdDetector` from its initial state. -/
noncomputable def aRun (cfg : ACfg) (xs : List EFloat) :
    Option (List ℝ × WinState) :=
  runDet (AdaptiveThresholdDetector.handleRecord cfg) winInit xs

/-- The values a variance-like computation can produce: `nan`, `+inf`,
or a non-negative finite real.  `math.sqrt` is defined on all of them. -/
def varSafe (e : EFloat) : Prop :=
  e = .nan ∨ e = .inf ∨ ∃ x : ℝ, 0 ≤ x ∧ e = .fin x

/-- The values a floored divisor can take: `nan`, `+inf`, or a positive
finite real — never exactly zero, so division cannot raise. -/
def divSafe (e : EFloat) : Prop :=
  e = .nan ∨ e = .inf ∨ ∃ x : ℝ, 0 < x ∧ e = .fin x

/-- The effective scale is always positive. -/
theorem effScale_pos (s : Option ℝ) : 0 < effScale s := by
  cases s with
  | none => norm_num [effScale]
  | some s0 =>
      by_cases h : s0 ≤ 0
      · simp [effScale, h]
      · simp only [effScale, if_neg h]
        linarith

/-- Unfolding of `logisticScore` on a finite metric. -/
theorem logisticScore_fin (v c : ℝ) (s : Option ℝ) :
    logisticScore (some (.fin v)) c s =
      (if 60 ≤ (v - c) / effScale s then 1
       else if (v - c) / effScale s ≤ -60 then 0
       else 1 / (1 + Real.exp (-((v - c) / effScale s)))) := rfl

/-- The clamped logistic curve is monotone in its argument. -/
theorem clampedLogistic_mono {x1 x2 : ℝ} (h : x1 ≤ x2) :
    (if 60 ≤ x1 then (1 : ℝ) else if x1 ≤ -60 then 0
      else 1 / (1 + Real.exp (-x1))) ≤
    (if 60 ≤ x2 then 1 else if x2 ≤ -60 then 0
      else 1 / (1 + Real.exp (-x2))) := by
  have e1 : (0 : ℝ) < 1 + Real.exp (-x1) := by positivity
  have e2 : (0 : ℝ) < 1 + Real.exp (-x2) := by positivity
  by_cases ha : 60 ≤ x1
  · have hb : 60 ≤ x2 := le_trans ha h
    simp [ha, hb]
  · by_cases hb : 60 ≤ x2
    · rw [if_neg ha, if_pos hb]
      by_cases hc : x1 ≤ -60
      · rw [if_pos hc]; norm_num
      · rw [if_neg hc, div_le_one e1]
        have := Real.exp_pos (-x1)
        linarith
    · rw [if_neg ha, if_neg hb]
      by_cases hc : x1 ≤ -60
      · rw [if_pos hc]
        by_cases hd : x2 ≤ -60
        · rw [if_pos hd]
        · rw [if_neg hd]; positivity
      · have hd : ¬ x2 ≤ -60 := by intro hx; exact hc (le_trans h hx)
        rw [if_neg hc, if_neg hd]
        apply one_div_le_one_div_of_le e2
        have : Real.exp (-x2) ≤ Real.exp (-x1) := Real.exp_le_exp.mpr (by linarith)
        linarith

/-- C5: for every finite metric, every center and every scale, the score
is at most one half when the metric is at most the center, at least one
half when the metric is at least the center, and exactly one half at the
center. -/
theorem C5_logistic_center_cross (m c : ℝ) (s : Option ℝ) :
    (m ≤ c → logisticScore (some (.fin m)) c s ≤ 1 / 2) ∧
    (c ≤ m → 1 / 2 ≤ logisticScore (some (.fin m)) c s) ∧
    (m = c → logisticScore (some (.fin m)) c s = 1 / 2) := by
  have hs := effScale_pos s
  rw [logisticScore_fin]
  set t := (m - c) / effScale s with ht
  refine ⟨?_, ?_, ?_⟩
  · intro h
    have hx : t ≤ 0 := by
      rw [ht, div_nonpos_iff]
      exact Or.inr ⟨by linarith, hs.le⟩
    rw [if_neg (by linarith : ¬ (60 : ℝ) ≤ t)]
    by_cases h2 : t ≤ -60
    · rw [if_pos h2]; norm_num
    · rw [if_neg h2]
      have he : (1 : ℝ) ≤ Real.exp (-t) := by
        have := Real.add_one_le_exp (-t)
        linarith
      exact one_div_le_one_div_of_le (by norm_num) (by linarith)
  · intro h
    have hx : 0 ≤ t := by
      rw [ht]
      exact div_nonneg (by linarith) hs.le
    by_cases h1 : 60 ≤ t
    · rw [if_pos h1]; norm_num
    · rw [if_neg h1, if_neg (by linarith : ¬ t ≤ -60)]
      have he : Real.exp (-t) ≤ 1 := by
        have h0 : Real.exp (-t) ≤ Real.exp 0 := Real.exp_le_exp.mpr (by linarith)
        simpa [Real.exp_zero] using h0
      have e1 : (0 : ℝ) < 1 + Real.exp (-t) := by positivity
      have := one_div_le_one_div_of_le e1 (by linarith : 1 + Real.exp (-t) ≤ 2)
      linarith
  · intro h
    have hx : t = 0 := by rw [ht, h, sub_self, zero_div]
    rw [hx]
    rw [if_neg (by norm_num : ¬ (60 : ℝ) ≤ 0), if_neg (by norm_num : ¬ (0 : ℝ) ≤ -60)]
    simp [Real.exp_zero]
    norm_num

/-- Witness for C5 at a concrete input. -/
theorem C5_witness :
    (3 : ℝ) = 3 ∧ logisticScore (some (.fin 3)) 3 (some 1) = 1 / 2 :=
  ⟨rfl, (C5_logistic_center_cross 3 3 (some 1)).2.2 rfl⟩

/-- C6: for fixed center and fixed positive scale, `logisticScore` is
non-decreasing in the (finite) metric, including across the clamp
boundaries. -/
theorem C6_logistic_mono (c sc m1 m2 : ℝ) (hs : 0 < sc) (h : m1 ≤ m2) :
    logisticScore (some (.fin m1)) c (some sc) ≤
      logisticScore (some (.fin m2)) c (some sc) := by
  rw [logisticScore_fin, logisticScore_fin]
  apply clampedLogistic_mono
  have hse : effScale (some sc) = sc := by
    simp [effScale, not_le.mpr hs]
  rw [hse]
  exact (div_le_div_iff_of_pos_right hs).mpr (by linarith)

/-- Witness for C6 at a concrete input. -/
theorem C6_witness :
    (0 : ℝ) < 1 ∧ (0 : ℝ) ≤ 1 ∧
      logisticScore (some (.fin 0)) 0 (some 1) ≤
        logisticScore (some (.fin 1)) 0 (some 1) :=
  ⟨by norm_num, by norm_num, C6_logistic_mono 0 1 0 1 (by norm_num) (by norm_num)⟩

/-- C8: for every center and every scale, `logisticScore` returns exactly
zero when the metric is `None`, `nan`, `+inf` or `-inf`. -/
theorem C8_nonfinite_metric_zero (c : ℝ) (s : Option ℝ) :
    logisticScore none c s = 0 ∧ logisticScore (some .nan) c s = 0 ∧
    logisticScore (some .inf) c s = 0 ∧ logisticScore (some .ninf) c s = 0 :=
  ⟨rfl, rfl, rfl, rfl⟩

/-- Unfolding `runDet` on an empty stream. -/
theorem runDet_nil {S : Type} (step : S → EFloat → Option (ℝ × S)) (s : S) :
    runDet step s [] = some ([], s) := rfl

/-- Unfolding `runDet` on a nonempty stream. -/
theorem runDet_cons {S : Type} (step : S → EFloat → Option (ℝ × S)) (s : S)
    (v : EFloat) (xs : List EFloat) :
    runDet step s (v :: xs) =
      (step s v).bind fun p =>
        (runDet step p.2 xs).bind fun r => some (p.1 :: r.1, r.2) := rfl

/-- A successful run produces one score per input record. -/
theorem runDet_length {S : Type} (step : S → EFloat → Option (ℝ × S)) :
    ∀ (xs : List EFloat) (s : S) (ss : List ℝ) (sfin : S),
      runDet step s xs = some (ss, sfin) → ss.length = xs.length := by
  intro xs
  induction xs with
  | nil => intro s ss sfin h; simp [runDet_nil] at h; simp [h.1]
  | cons v rest ih =>
      intro s ss sfin h
      rw [runDet_cons] at h
      rcases Option.bind_eq_some.mp h with ⟨p, hp, h2⟩
      rcases Option.bind_eq_some.mp h2 with ⟨r, hr, h3⟩
      injection h3 with h4
      have h5 := ih p.2 r.1 r.2 hr
      have hss : ss = p.1 :: r.1 := (congrArg Prod.fst h4).symm
      rw [hss]
      simp [h5]

/-- A run over an appended stream decomposes into two runs. -/
theorem runDet_append {S : Type} (step : S → EFloat → Option (ℝ × S)) :
    ∀ (xs ys : List EFloat) (s : S),
      runDet step s (xs ++ ys) =
        (runDet step s xs).bind fun r =>
          (runDet step r.2 ys).bind fun r2 => some (r.1 ++ r2.1, r2.2) := by
  intro xs
  induction xs with
  | nil => intro ys s; simp [runDet_nil]
  | cons v rest ih =>
      intro ys s
      rw [List.cons_append, runDet_cons, runDet_cons]
      cases step s v with
      | none => simp
      | some p =>
          simp only [Option.some_bind]
          rw [ih ys p.2]
          cases runDet step p.2 rest with
          | none => simp
          | some r =>
              simp only [Option.some_bind]
              cases runDet step r.2 ys with
              | none => simp
              | some r2 => simp

/-- If every step advances an index by one, a run advances it by the
stream length. -/
theorem runDet_index {S : Type} (step : S → EFloat → Option (ℝ × S))
    (idx : S → ℕ) (hstep : ∀ s v r, step s v = some r → idx r.2 = idx s + 1) :
    ∀ (xs : List EFloat) (s : S) (ss : List ℝ) (sfin : S),
      runDet step s xs = some (ss, sfin) → idx sfin = idx s + xs.length := by
  intro xs
  induction xs with
  | nil => intro s ss sfin h; simp [runDet_nil] at h; simp [← h.2]
  | cons v rest ih =>
      intro s ss sfin h
      rw [runDet_cons] at h
      rcases Option.bind_eq_some.mp h with ⟨p, hp, h2⟩
      rcases Option.bind_eq_some.mp h2 with ⟨r, hr, h3⟩
      injection h3 with h4
      have h5 := ih p.2 r.1 r.2 hr
      have h6 := hstep s v p hp
      have h7 : sfin = r.2 := (congrArg Prod.snd h4).symm
      rw [h7, h5, h6]
      simp [List.length_cons]
      ring

/-- `ZScoreDetector.handleRecord` increments the record counter. -/
theorem zStep_index (cfg : ZCfg) (s : WinState) (v : EFloat) (r : ℝ × WinState)
    (h : ZScoreDetector.handleRecord cfg s v = some r) :
    r.2.recordIndex = s.recordIndex + 1 := by
  simp only [ZScoreDetector.handleRecord] at h
  rcases Option.bind_eq_some.mp h with ⟨sc, hsc, h2⟩
  injection h2 with h3
  rw [← h3]

/-- During probation `ZScoreDetector.handleRecord` returns score `0`. -/
theorem zStep_probation (cfg : ZCfg) (s : WinState) (v : EFloat) (r : ℝ × WinState)
    (h : ZScoreDetector.handleRecord cfg s v = some r)
    (hp : s.recordIndex < cfg.probationaryPeriod) : r.1 = 0 := by
  simp only [ZScoreDetector.handleRecord] at h
  rcases Option.bind_eq_some.mp h with ⟨sc, hsc, h2⟩
  injection h2 with h3
  rw [← h3]
  simp [hp]

/-- The EWMA state update increments the record counter. -/
theorem eUpdate_index (cfg : ECfg) (s : EwmaState) (v : EFloat) :
    (eUpdate cfg s v).recordIndex = s.recordIndex + 1 := by
  cases h : s.ewma <;> simp [eUpdate, h]

/-- `EwmaDetector.handleRecord` increments the record counter. -/
theorem eStep_index (cfg : ECfg) (s : EwmaState) (v : EFloat) (r : ℝ × EwmaState)
    (h : EwmaDetector.handleRecord cfg s v = some r) :
    r.2.recordIndex = s.recordIndex + 1 := by
  simp only [EwmaDetector.handleRecord] at h
  rcases Option.bind_eq_some.mp h with ⟨sc, hsc, h2⟩
  injection h2 with h3
  rw [← h3]
  exact eUpdate_index cfg s v

/-- During probation `EwmaDetector.handleRecord` returns score `0`. -/
theorem eStep_probation (cfg : ECfg) (s : EwmaState) (v : EFloat) (r : ℝ × EwmaState)
    (h : EwmaDetector.handleRecord cfg s v = some r)
    (hp : s.recordIndex < cfg.probationaryPeriod) : r.1 = 0 := by
  simp only [EwmaDetector.handleRecord] at h
  rcases Option.bind_eq_some.mp h with ⟨sc, hsc, h2⟩
  injection h2 with h3
  rw [← h3]
  simp [hp]

/-- `AdaptiveThresholdDetector.handleRecord` increments the record counter. -/
theorem aStep_index (cfg : ACfg) (s : WinState) (v : EFloat) (r : ℝ × WinState)
    (h : AdaptiveThresholdDetector.handleRecord cfg s v = some r) :
    r.2.recordIndex = s.recordIndex + 1 := by
  simp only [AdaptiveThresholdDetector.handleRecord] at h
  rcases Option.bind_eq_some.mp h with ⟨sc, hsc, h2⟩
  injection h2 with h3
  rw [← h3]

/-- During probation `AdaptiveThresholdDetector.handleRecord` returns
score `0`. -/
theorem aStep_probation (cfg : ACfg) (s : WinState) (v : EFloat) (r : ℝ × WinState)
    (h : AdaptiveThresholdDetector.handleRecord cfg s v = some r)
    (hp : s.recordIndex < cfg.probationaryPeriod) : r.1 = 0 := by
  simp only [AdaptiveThresholdDetector.handleRecord] at h
  rcases Option.bind_eq_some.mp h with ⟨sc, hsc, h2⟩
  injection h2 with h3
  rw [← h3]
  simp [hp]

/-- Generic probation lemma: if every step increments an index and
returns `0` whenever the index is below `p`, then every score whose index
is below `p` is `0`. -/
theorem runDet_probation {S : Type} (step : S → EFloat → Option (ℝ × S))
    (idx : S → ℕ) (p : ℕ)
    (hidx : ∀ s v r, step s v = some r → idx r.2 = idx s + 1)
    (hzero : ∀ s v r, step s v = some r → idx s < p → r.1 = 0) :
    ∀ (xs : List EFloat) (s : S) (ss : List ℝ) (sfin : S),
      runDet step s xs = some (ss, sfin) →
      ∀ i, idx s + i < p → i < ss.length → ss[i]? = some 0 := by
  intro xs
  induction xs with
  | nil =>
      intro s ss sfin h i hp hi
      simp [runDet_nil] at h
      rw [h.1] at hi
      simp at hi
  | cons v rest ih =>
      intro s ss sfin h i hp hi
      rw [runDet_cons] at h
      rcases Option.bind_eq_some.mp h with ⟨q, hq, h2⟩
      rcases Option.bind_eq_some.mp h2 with ⟨r, hr, h3⟩
      injection h3 with h4
      have hss : ss = q.1 :: r.1 := (congrArg Prod.fst h4).symm
      cases i with
      | zero =>
          rw [hss]
          have : q.1 = 0 := hzero s v q hq (by omega)
          simp [this]
      | succ j =>
          rw [hss]
          rw [List.getElem?_cons_succ]
          apply ih q.2 r.1 r.2 hr j
          · rw [hidx s v q hq]
            omega
          · rw [hss] at hi
            simp at hi
            omega

/-- C3: for each of the three detectors, any configuration, any
probationary period and any input stream, every score returned among the
first `probationaryPeriod` records is exactly `0.0`. -/
theorem C3_probation_scores_zero :
    (∀ (cfg : ZCfg) (xs : List EFloat) (ss : List ℝ) (sfin : WinState) (i : ℕ),
      zRun cfg xs = some (ss, sfin) → i < cfg.probationaryPeriod →
      i < ss.length → ss[i]? = some 0) ∧
    (∀ (cfg : ECfg) (xs : List EFloat) (ss : List ℝ) (sfin : EwmaState) (i : ℕ),
      eRun cfg xs = some (ss, sfin) → i < cfg.probationaryPeriod →
      i < ss.length → ss[i]? = some 0) ∧
    (∀ (cfg : ACfg) (xs : List EFloat) (ss : List ℝ) (sfin : WinState) (i : ℕ),
      aRun cfg xs = some (ss, sfin) → i < cfg.probationaryPeriod →
      i < ss.length → ss[i]? = some 0) := by
  refine ⟨?_, ?_, ?_⟩
  · intro cfg xs ss sfin i h hp hi
    exact runDet_probation (ZScoreDetector.handleRecord cfg)
      (fun s => s.recordIndex) cfg.probationaryPeriod
      (fun s v r hr => zStep_index cfg s v r hr)
      (fun s v r hr hlt => zStep_probation cfg s v r hr hlt)
      xs winInit ss sfin h i (by simpa [winInit] using hp) hi
  · intro cfg xs ss sfin i h hp hi
    exact runDet_probation (EwmaDetector.handleRecord cfg)
      (fun s => s.recordIndex) cfg.probationaryPeriod
      (fun s v r hr => eStep_index cfg s v r hr)
      (fun s v r hr hlt => eStep_probation cfg s v r hr hlt)
      xs ewmaInit ss sfin h i (by simpa [ewmaInit] using hp) hi
  · intro cfg xs ss sfin i h hp hi
    exact runDet_probation (AdaptiveThresholdDetector.handleRecord cfg)
      (fun s => s.recordIndex) cfg.probationaryPeriod
      (fun s v r hr => aStep_index cfg s v r hr)
      (fun s v r hr hlt => aStep_probation cfg s v r hr hlt)
      xs winInit ss sfin h i (by simpa [winInit] using hp) hi

/-- Witness for C3 at a concrete run. -/
theorem C3_witness :
    zRun ⟨1, 3, 1, 1 / 1000000, 2⟩ [.fin 5] = some ([0], ⟨[.fin 5], 1⟩) ∧
    (0 : ℕ) < 2 ∧ (0 : ℕ) < 1 ∧ (([0] : List ℝ))[0]? = some 0 := by
  have hrun : zRun ⟨1, 3, 1, 1 / 1000000, 2⟩ [.fin 5] = some ([0], ⟨[.fin 5], 1⟩) := by
    simp [zRun, runDet, ZScoreDetector.handleRecord, zScoreOnly, winInit, pushWin]
  exact ⟨hrun, by norm_num, by norm_num,
    C3_probation_scores_zero.1 ⟨1, 3, 1, 1 / 1000000, 2⟩ [.fin 5] [0] ⟨[.fin 5], 1⟩ 0
      hrun (by norm_num) (by simp)⟩

/-- If two step functions succeed together and agree on the successor
state, the runs agree on success and all intermediate states. -/
theorem runDet_state_congr {S : Type} (step1 step2 : S → EFloat → Option (ℝ × S))
    (h : ∀ s v, (step1 s v).map Prod.snd = (step2 s v).map Prod.snd) :
    ∀ (xs : List EFloat) (s : S),
      (runDet step1 s xs).map Prod.snd = (runDet step2 s xs).map Prod.snd := by
  intro xs
  induction xs with
  | nil => intro s; simp [runDet_nil]
  | cons v rest ih =>
      intro s
      rw [runDet_cons, runDet_cons]
      have hv := h s v
      cases h1 : step1 s v with
      | none =>
          rw [h1] at hv
          cases h2 : step2 s v with
          | none => simp
          | some p2 => rw [h2] at hv; simp at hv
      | some p1 =>
          rw [h1] at hv
          cases h2 : step2 s v with
          | none => rw [h2] at hv; simp at hv
          | some p2 =>
              rw [h2] at hv
              simp only [Option.map_some'] at hv
              injection hv with hv
              simp only [Option.some_bind]
              rw [← hv]
              have h3 := ih p1.2
              cases hr1 : runDet step1 p1.2 rest with
              | none =>
                  rw [hr1] at h3
                  cases hr2 : runDet step2 p1.2 rest with
                  | none => simp
                  | some r2 => rw [hr2] at h3; simp at h3
              | some r1 =>
                  rw [hr1] at h3
                  cases hr2 : runDet step2 p1.2 rest with
                  | none => rw [hr2] at h3; simp at h3
                  | some r2 =>
                      rw [hr2] at h3
                      simp only [Option.map_some'] at h3
                      injection h3 with h3
                      simp [h3]

/-- The score-only half of the z-score detector ignores the probationary
period. -/
theorem zScoreOnly_probation_irrel (w : ℕ) (t sc m : ℝ) (p p' : ℕ)
    (s : WinState) (v : EFloat) :
    zScoreOnly ⟨w, t, sc, m, p⟩ s v = zScoreOnly ⟨w, t, sc, m, p'⟩ s v := rfl

/-- The score-only half of the EWMA detector ignores the probationary
period. -/
theorem eScoreOnly_probation_irrel (a t sc m : ℝ) (p p' : ℕ)
    (s : EwmaState) (v : EFloat) :
    eScoreOnly ⟨a, t, sc, m, p⟩ s v = eScoreOnly ⟨a, t, sc, m, p'⟩ s v := rfl

/-- The score-only half of the adaptive detector ignores the probationary
period. -/
theorem aScoreOnly_probation_irrel (w : ℕ) (sv sc m : ℝ) (p p' : ℕ)
    (s : WinState) (v : EFloat) :
    aScoreOnly ⟨w, sv, sc, m, p⟩ s v = aScoreOnly ⟨w, sv, sc, m, p'⟩ s v := rfl

/-- C10: the state reached after any number of records (window contents,
ewma, variance, record counter) is identical for any two values of the
probationary period, for all three detectors: probation only overrides
the returned score. -/
theorem C10_probation_frame :
    (∀ (w : ℕ) (t sc m : ℝ) (p p' : ℕ) (xs : List EFloat),
      (zRun ⟨w, t, sc, m, p⟩ xs).map Prod.snd =
        (zRun ⟨w, t, sc, m, p'⟩ xs).map Prod.snd) ∧
    (∀ (a t sc m : ℝ) (p p' : ℕ) (xs : List EFloat),
      (eRun ⟨a, t, sc, m, p⟩ xs).map Prod.snd =
        (eRun ⟨a, t, sc, m, p'⟩ xs).map Prod.snd) ∧
    (∀ (w : ℕ) (sv sc m : ℝ) (p p' : ℕ) (xs : List EFloat),
      (aRun ⟨w, sv, sc, m, p⟩ xs).map Prod.snd =
        (aRun ⟨w, sv, sc, m, p'⟩ xs).map Prod.snd) := by
  refine ⟨?_, ?_, ?_⟩
  · intro w t sc m p p' xs
    apply runDet_state_congr
    intro s v
    simp only [ZScoreDetector.handleRecord, zScoreOnly_probation_irrel w t sc m p p']
    cases h : zScoreOnly ⟨w, t, sc, m, p'⟩ s v <;> simp
  · intro a t sc m p p' xs
    apply runDet_state_congr
    intro s v
    simp only [EwmaDetector.handleRecord, eScoreOnly_probation_irrel a t sc m p p']
    have hu : eUpdate ⟨a, t, sc, m, p⟩ s v = eUpdate ⟨a, t, sc, m, p'⟩ s v := rfl
    rw [hu]
    cases h : eScoreOnly ⟨a, t, sc, m, p'⟩ s v <;> simp
  · intro w sv sc m p p' xs
    apply runDet_state_congr
    intro s v
    simp only [AdaptiveThresholdDetector.handleRecord,
      aScoreOnly_probation_irrel w sv sc m p p']
    cases h : aScoreOnly ⟨w, sv, sc, m, p'⟩ s v <;> simp

/-- A z-score step on a not-yet-full window returns score `0` and appends
the value without eviction. -/
theorem zStep_window_not_full (cfg : ZCfg) (s : WinState) (v : EFloat)
    (h : s.window.length < cfg.windowSize) :
    ZScoreDetector.handleRecord cfg s v =
      some (0, ⟨s.window ++ [v], s.recordIndex + 1⟩) := by
  have h1 : ¬ cfg.windowSize ≤ s.window.length := not_le.mpr h
  have h2 : s.window.length + 1 ≤ cfg.windowSize := h
  simp [ZScoreDetector.handleRecord, zScoreOnly, h1, pushWin, h2, ite_self]

/-- An adaptive-threshold step on a not-yet-full window returns score `0`
and appends the value without eviction. -/
theorem aStep_window_not_full (cfg : ACfg) (s : WinState) (v : EFloat)
    (h : s.window.length < cfg.windowSize) :
    AdaptiveThresholdDetector.handleRecord cfg s v =
      some (0, ⟨s.window ++ [v], s.recordIndex + 1⟩) := by
  have h1 : ¬ cfg.windowSize ≤ s.window.length := not_le.mpr h
  have h2 : s.window.length + 1 ≤ cfg.windowSize := h
  simp [AdaptiveThresholdDetector.handleRecord, aScoreOnly, h1, pushWin, h2, ite_self]

/-- Generic filling lemma: while a window-based detector's window is not
yet full, every score is `0` and the values accumulate in order. -/
theorem runDet_window_fill (step : WinState → EFloat → Option (ℝ × WinState))
    (cap : ℕ)
    (hstep : ∀ s v, s.window.length < cap →
      step s v = some (0, ⟨s.window ++ [v], s.recordIndex + 1⟩)) :
    ∀ (xs : List EFloat) (w : List EFloat) (k : ℕ), w.length + xs.length ≤ cap →
      runDet step ⟨w, k⟩ xs =
        some (List.replicate xs.length 0, ⟨w ++ xs, k + xs.length⟩) := by
  intro xs
  induction xs with
  | nil => intro w k h; simp [runDet_nil]
  | cons v rest ih =>
      intro w k h
      have hlen : w.length + rest.length + 1 ≤ cap := by
        simp only [List.length_cons] at h
        omega
      rw [runDet_cons]
      rw [hstep ⟨w, k⟩ v (show w.length < cap by omega)]
      simp only [Option.some_bind]
      have h2 := ih (w ++ [v]) (k + 1)
        (by simp only [List.length_append, List.length_singleton]; omega)
      rw [h2]
      simp only [Option.some_bind, List.length_cons, List.replicate_succ,
        List.append_assoc, List.singleton_append, Option.some.injEq,
        Prod.mk.injEq, WinState.mk.injEq, true_and] <;> omega

/-- C7: for both window-based detectors, any call made while the window
holds fewer than `windowSize` values returns exactly `0.0` whatever the
record index and probationary period; consequently a run over at most
`windowSize` records succeeds with all scores `0`. -/
theorem C7_window_not_full_scores_zero :
    (∀ (cfg : ZCfg) (s : WinState) (v : EFloat), s.window.length < cfg.windowSize →
      ZScoreDetector.handleRecord cfg s v =
        some (0, ⟨s.window ++ [v], s.recordIndex + 1⟩)) ∧
    (∀ (cfg : ZCfg) (xs : List EFloat), xs.length ≤ cfg.windowSize →
      zRun cfg xs = some (List.replicate xs.length 0, ⟨xs, xs.length⟩)) ∧
    (∀ (cfg : ACfg) (s : WinState) (v : EFloat), s.window.length < cfg.windowSize →
      AdaptiveThresholdDetector.handleRecord cfg s v =
        some (0, ⟨s.window ++ [v], s.recordIndex + 1⟩)) ∧
    (∀ (cfg : ACfg) (xs : List EFloat), xs.length ≤ cfg.windowSize →
      aRun cfg xs = some (List.replicate xs.length 0, ⟨xs, xs.length⟩)) := by
  refine ⟨fun cfg s v h => zStep_window_not_full cfg s v h, ?_,
    fun cfg s v h => aStep_window_not_full cfg s v h, ?_⟩
  · intro cfg xs h
    have := runDet_window_fill (ZScoreDetector.handleRecord cfg) cfg.windowSize
      (fun s v hv => zStep_window_not_full cfg s v hv) xs [] 0
      (by simpa using h)
    simpa [zRun, winInit] using this
  · intro cfg xs h
    have := runDet_window_fill (AdaptiveThresholdDetector.handleRecord cfg)
      cfg.windowSize (fun s v hv => aStep_window_not_full cfg s v hv) xs [] 0
      (by simpa using h)
    simpa [aRun, winInit] using this

/-- Witness for C7 at a concrete call. -/
theorem C7_witness :
    ([] : List EFloat).length < 2 ∧
    ZScoreDetector.handleRecord ⟨2, 3, 1, 1 / 1000000, 0⟩ ⟨[], 5⟩ (.fin 7) =
      some (0, ⟨[.fin 7], 6⟩) := by
  refine ⟨by simp, ?_⟩
  have h := C7_window_not_full_scores_zero.1 ⟨2, 3, 1, 1 / 1000000, 0⟩ ⟨[], 5⟩
    (.fin 7) (by simp)
  simpa using h

/-- A successful run decomposes at any cut point `i ≤ length`: the prefix
run reproduces the first `i` scores and reaches an intermediate state
from which the suffix run continues. -/
theorem runDet_take_drop {S : Type} (step : S → EFloat → Option (ℝ × S))
    (xs : List EFloat) (s : S) (ss : List ℝ) (sfin : S)
    (h : runDet step s xs = some (ss, sfin)) (i : ℕ) (hi : i ≤ xs.length) :
    ∃ si, runDet step s (xs.take i) = some (ss.take i, si) ∧
      runDet step si (xs.drop i) = some (ss.drop i, sfin) := by
  have happ := runDet_append step (xs.take i) (xs.drop i) s
  rw [List.take_append_drop, h] at happ
  rcases Option.bind_eq_some.mp happ.symm with ⟨r1, hr1, h2⟩
  rcases Option.bind_eq_some.mp h2 with ⟨r2, hr2, h3⟩
  injection h3 with h4
  have hss : ss = r1.1 ++ r2.1 := (congrArg Prod.fst h4).symm
  have hsf : sfin = r2.2 := (congrArg Prod.snd h4).symm
  have hlen1 : r1.1.length = i := by
    rw [runDet_length step (xs.take i) s r1.1 r1.2 (by simpa using hr1)]
    simpa using hi
  refine ⟨r1.2, ?_, ?_⟩
  · rw [hss, List.take_left' hlen1]
    simpa using hr1
  · rw [hss, List.drop_left' hlen1, hsf]
    simpa using hr2

/-- C4: for all three detectors, the score of record `i` decomposes as
the score-only function applied to the state reached by the first `i`
records (a function of strictly earlier records only) and the current
value, followed by the probation override; the current value enters the
window / EWMA statistics only in the state produced by that same step. -/
theorem C4_causality :
    (∀ (cfg : ZCfg) (xs : List EFloat) (ss : List ℝ) (sfin : WinState) (i : ℕ)
      (hi : i < xs.length), zRun cfg xs = some (ss, sfin) →
      ∃ si sc,
        zRun cfg (xs.take i) = some (ss.take i, si) ∧
        si.recordIndex = i ∧
        zScoreOnly cfg si (xs.get ⟨i, hi⟩) = some sc ∧
        ss[i]? = some (if i < cfg.probationaryPeriod then 0 else sc) ∧
        ZScoreDetector.handleRecord cfg si (xs.get ⟨i, hi⟩) =
          some (if i < cfg.probationaryPeriod then 0 else sc,
            ⟨pushWin cfg.windowSize si.window (xs.get ⟨i, hi⟩), i + 1⟩)) ∧
    (∀ (cfg : ECfg) (xs : List EFloat) (ss : List ℝ) (sfin : EwmaState) (i : ℕ)
      (hi : i < xs.length), eRun cfg xs = some (ss, sfin) →
      ∃ si sc,
        eRun cfg (xs.take i) = some (ss.take i, si) ∧
        si.recordIndex = i ∧
        eScoreOnly cfg si (xs.get ⟨i, hi⟩) = some sc ∧
        ss[i]? = some (if i < cfg.probationaryPeriod then 0 else sc) ∧
        EwmaDetector.handleRecord cfg si (xs.get ⟨i, hi⟩) =
          some (if i < cfg.probationaryPeriod then 0 else sc,
            eUpdate cfg si (xs.get ⟨i, hi⟩))) ∧
    (∀ (cfg : ACfg) (xs : List EFloat) (ss : List ℝ) (sfin : WinState) (i : ℕ)
      (hi : i < xs.length), aRun cfg xs = some (ss, sfin) →
      ∃ si sc,
        aRun cfg (xs.take i) = some (ss.take i, si) ∧
        si.recordIndex = i ∧
        aScoreOnly cfg si (xs.get ⟨i, hi⟩) = some sc ∧
        ss[i]? = some (if i < cfg.probationaryPeriod then 0 else sc) ∧
        AdaptiveThresholdDetector.handleRecord cfg si (xs.get ⟨i, hi⟩) =
          some (if i < cfg.probationaryPeriod then 0 else sc,
            ⟨pushWin cfg.windowSize si.window (xs.get ⟨i, hi⟩), i + 1⟩)) := by
  refine ⟨?_, ?_, ?_⟩
  · intro cfg xs ss sfin i hi h
    rcases runDet_take_drop (ZScoreDetector.handleRecord cfg) xs winInit ss sfin h
      i hi.le with ⟨si, htake, hdrop⟩
    have hlen : ss.length = xs.length :=
      runDet_length (ZScoreDetector.handleRecord cfg) xs winInit ss sfin h
    have hidx : si.recordIndex = i := by
      have := runDet_index (ZScoreDetector.handleRecord cfg)
        (fun s => s.recordIndex) (fun s v r hr => zStep_index cfg s v r hr)
        (xs.take i) winInit (ss.take i) si htake
      simpa [winInit, Nat.min_eq_left hi.le] using this
    rw [List.drop_eq_getElem_cons hi, runDet_cons] at hdrop
    rcases Option.bind_eq_some.mp hdrop with ⟨q, hq, h2⟩
    rcases Option.bind_eq_some.mp h2 with ⟨r, hr, h3⟩
    injection h3 with h4
    have hsd : ss.drop i = q.1 :: r.1 := (congrArg Prod.fst h4).symm
    have hssi : ss[i]? = some q.1 := by
      have h5 : (ss.drop i)[0]? = ss[i]? := by
        rw [List.getElem?_drop]
        simp
      rw [← h5, hsd]
      simp
    simp only [ZScoreDetector.handleRecord] at hq
    rcases Option.bind_eq_some.mp hq with ⟨sc, hsc, h6⟩
    injection h6 with h7
    refine ⟨si, sc, htake, hidx, ?_, ?_, ?_⟩
    · have : xs.get ⟨i, hi⟩ = xs[i] := rfl
      rw [this]; exact hsc
    · rw [hssi, ← h7]
      simp [hidx]
    · simp only [ZScoreDetector.handleRecord]
      have : xs.get ⟨i, hi⟩ = xs[i] := rfl
      rw [this, hsc]
      simp [hidx]
  · intro cfg xs ss sfin i hi h
    rcases runDet_take_drop (EwmaDetector.handleRecord cfg) xs ewmaInit ss sfin h
      i hi.le with ⟨si, htake, hdrop⟩
    have hidx : si.recordIndex = i := by
      have := runDet_index (EwmaDetector.handleRecord cfg)
        (fun s => s.recordIndex) (fun s v r hr => eStep_index cfg s v r hr)
        (xs.take i) ewmaInit (ss.take i) si htake
      simpa [ewmaInit, Nat.min_eq_left hi.le] using this
    rw [List.drop_eq_getElem_cons hi, runDet_cons] at hdrop
    rcases Option.bind_eq_some.mp hdrop with ⟨q, hq, h2⟩
    rcases Option.bind_eq_some.mp h2 with ⟨r, hr, h3⟩
    injection h3 with h4
    have hsd : ss.drop i = q.1 :: r.1 := (congrArg Prod.fst h4).symm
    have hssi : ss[i]? = some q.1 := by
      have h5 : (ss.drop i)[0]? = ss[i]? := by
        rw [List.getElem?_drop]
        simp
      rw [← h5, hsd]
      simp
    simp only [EwmaDetector.handleRecord] at hq
    rcases Option.bind_eq_some.mp hq with ⟨sc, hsc, h6⟩
    injection h6 with h7
    refine ⟨si, sc, htake, hidx, ?_, ?_, ?_⟩
    · have : xs.get ⟨i, hi⟩ = xs[i] := rfl
      rw [this]; exact hsc
    · rw [hssi, ← h7]
      simp [hidx]
    · simp only [EwmaDetector.handleRecord]
      have : xs.get ⟨i, hi⟩ = xs[i] := rfl
      rw [this, hsc]
      simp [hidx]
  · intro cfg xs ss sfin i hi h
    rcases runDet_take_drop (AdaptiveThresholdDetector.handleRecord cfg) xs winInit
      ss sfin h i hi.le with ⟨si, htake, hdrop⟩
    have hidx : si.recordIndex = i := by
      have := runDet_index (AdaptiveThresholdDetector.handleRecord cfg)
        (fun s => s.recordIndex) (fun s v r hr => aStep_index cfg s v r hr)
        (xs.take i) winInit (ss.take i) si htake
      simpa [winInit, Nat.min_eq_left hi.le] using this
    rw [List.drop_eq_getElem_cons hi, runDet_cons] at hdrop
    rcases Option.bind_eq_some.mp hdrop with ⟨q, hq, h2⟩
    rcases Option.bind_eq_some.mp h2 with ⟨r, hr, h3⟩
    injection h3 with h4
    have hsd : ss.drop i = q.1 :: r.1 := (congrArg Prod.fst h4).symm
    have hssi : ss[i]? = some q.1 := by
      have h5 : (ss.drop i)[0]? = ss[i]? := by
        rw [List.getElem?_drop]
        simp
      rw [← h5, hsd]
      simp
    simp only [AdaptiveThresholdDetector.handleRecord] at hq
    rcases Option.bind_eq_some.mp hq with ⟨sc, hsc, h6⟩
    injection h6 with h7
    refine ⟨si, sc, htake, hidx, ?_, ?_, ?_⟩
    · have : xs.get ⟨i, hi⟩ = xs[i] := rfl
      rw [this]; exact hsc
    · rw [hssi, ← h7]
      simp [hidx]
    · simp only [AdaptiveThresholdDetector.handleRecord]
      have : xs.get ⟨i, hi⟩ = xs[i] := rfl
      rw [this, hsc]
      simp [hidx]

/-- Witness for C4 at a concrete run. -/
theorem C4_witness :
    zRun ⟨1, 3, 1, 1 / 1000000, 0⟩ [.fin 1] = some ([0], ⟨[.fin 1], 1⟩) ∧
    (0 : ℕ) < ([EFloat.fin 1] : List EFloat).length ∧
    ∃ si sc,
      zRun ⟨1, 3, 1, 1 / 1000000, 0⟩ ([] : List EFloat) = some ([], si) ∧
      si.recordIndex = 0 ∧
      zScoreOnly ⟨1, 3, 1, 1 / 1000000, 0⟩ si (.fin 1) = some sc ∧
      ([0] : List ℝ)[0]? = some sc := by
  have hrun : zRun ⟨1, 3, 1, 1 / 1000000, 0⟩ [.fin 1] = some ([0], ⟨[.fin 1], 1⟩) := by
    simp [zRun, runDet, ZScoreDetector.handleRecord, zScoreOnly, winInit, pushWin]
  have hlen : (0 : ℕ) < ([EFloat.fin 1] : List EFloat).length := by simp
  rcases C4_causality.1 ⟨1, 3, 1, 1 / 1000000, 0⟩ [.fin 1] [0] ⟨[.fin 1], 1⟩ 0 hlen hrun
    with ⟨si, sc, h1, h2, h3, h4, h5⟩
  exact ⟨hrun, hlen, si, sc, by simpa using h1, h2, by simpa using h3,
    by simpa using h4⟩

/-- Full evaluation of the spec's end-to-end example: `windowSize=3`,
`threshold=2`, `scale=1`, `minStd=1e-6`, `probationaryPeriod=0`, input
`[1,1,1,1,1,10]`. -/
theorem zRunSixEval :
    zRun ⟨3, 2, 1, 1 / 1000000, 0⟩
        [.fin 1, .fin 1, .fin 1, .fin 1, .fin 1, .fin 10] =
      some ([0, 0, 0, 1 / (1 + Real.exp 2), 1 / (1 + Real.exp 2), 1],
        ⟨[.fin 1, .fin 1, .fin 10], 6⟩) := by
  norm_num [zRun, runDet, ZScoreDetector.handleRecord, zScoreOnly, winInit,
    pushWin, esum, EFloat.ediv, EFloat.esqrt, EFloat.sub, EFloat.add,
    EFloat.neg, EFloat.mul, EFloat.eabs, EFloat.flt, logisticScore, effScale,
    Real.sqrt_zero, abs_of_nonneg, abs_of_pos]

/-- C1 counterexample: in the end-to-end example the fourth score (index
3) is `1/(1+e^2)`, which is not `0.0` as claimed — the zero-variance
window yields `z = 0`, and the logistic transform maps `z = 0` with
center `2` to `1/(1+e^2) ≈ 0.119`, not `0`. -/
theorem C1_counterexample :
    (zRun ⟨3, 2, 1, 1 / 1000000, 0⟩
        [.fin 1, .fin 1, .fin 1, .fin 1, .fin 1, .fin 10]).map
        (fun p => p.1[3]?) = some (some (1 / (1 + Real.exp 2))) ∧
    1 / (1 + Real.exp 2) ≠ (0 : ℝ) := by
  constructor
  · rw [zRunSixEval]
    rfl
  · have h : (0 : ℝ) < 1 / (1 + Real.exp 2) := by positivity
    exact ne_of_gt h

/-- C1 amended: the six scores are
`[0, 0, 0, 1/(1+e^2), 1/(1+e^2), 1]` — the first three are `0` (window
not yet full), the fourth and fifth equal `1/(1+e^2)` (zero-variance
window, `z = 0`, logistic centred at `2`), and the sixth is exactly `1`
(std floored to `1e-6`, `z = 9e6`, clamped logistic). -/
theorem C1_amended :
    zRun ⟨3, 2, 1, 1 / 1000000, 0⟩
        [.fin 1, .fin 1, .fin 1, .fin 1, .fin 1, .fin 10] =
      some ([0, 0, 0, 1 / (1 + Real.exp 2), 1 / (1 + Real.exp 2), 1],
        ⟨[.fin 1, .fin 1, .fin 10], 6⟩) := zRunSixEval

/-- One EWMA step on a constant stream after initialisation: score is the
constant `logisticScore 0`, and `ewma`/`variance` stay `v`/`0`. -/
theorem eConstStep (alpha threshold scale minStd v : ℝ) (k : ℕ)
    (h3 : 0 < minStd) :
    EwmaDetector.handleRecord ⟨alpha, threshold, scale, minStd, 0⟩
        ⟨some (.fin v), .fin 0, k⟩ (.fin v) =
      some (logisticScore (some (.fin 0)) threshold (some scale),
        ⟨some (.fin v), .fin 0, k + 1⟩) := by
  norm_num [EwmaDetector.handleRecord, eScoreOnly, eUpdate, EFloat.sub,
    EFloat.add, EFloat.neg, EFloat.mul, EFloat.eabs, EFloat.ediv,
    EFloat.esqrt, EFloat.flt, Real.sqrt_zero, h3, h3.ne']

/-- Constant-stream EWMA run from an initialised state. -/
theorem eConstRun (alpha threshold scale minStd v : ℝ) (h3 : 0 < minStd) :
    ∀ (n k : ℕ),
      runDet (EwmaDetector.handleRecord ⟨alpha, threshold, scale, minStd, 0⟩)
        ⟨some (.fin v), .fin 0, k⟩ (List.replicate n (.fin v)) =
      some (List.replicate n
          (logisticScore (some (.fin 0)) threshold (some scale)),
        ⟨some (.fin v), .fin 0, k + n⟩) := by
  intro n
  induction n with
  | zero => intro k; simp [runDet_nil]
  | succ m ih =>
      intro k
      rw [List.replicate_succ, runDet_cons,
        eConstStep alpha threshold scale minStd v k h3]
      simp only [Option.some_bind]
      rw [ih (k + 1)]
      simp only [Option.some_bind, List.replicate_succ, Option.some.injEq,
        Prod.mk.injEq, EwmaState.mk.injEq, true_and]
      omega

/-- The very first EWMA record scores `0` and initialises the state. -/
theorem eFirstStep (alpha threshold scale minStd v : ℝ) :
    EwmaDetector.handleRecord ⟨alpha, threshold, scale, minStd, 0⟩ ewmaInit
        (.fin v) = some (0, ⟨some (.fin v), .fin 0, 1⟩) := by
  simp [EwmaDetector.handleRecord, eScoreOnly, eUpdate, ewmaInit]

/-- C2 amended: with `0 < alpha ≤ 1`, `minStd > 0` and no probation, a
constant stream `v, v, …` keeps `variance` exactly `0` after every call,
and every score after the first equals the constant
`logisticScore(0, threshold, scale)` — which is nonzero unless
`(0 - threshold)/scale ≤ -60` — rather than `0.0`. -/
theorem C2_amended (alpha threshold scale minStd v : ℝ) (n : ℕ)
    (h1 : 0 < alpha) (h2 : alpha ≤ 1) (h3 : 0 < minStd) :
    eRun ⟨alpha, threshold, scale, minStd, 0⟩
        (List.replicate (n + 1) (.fin v)) =
      some (0 :: List.replicate n
          (logisticScore (some (.fin 0)) threshold (some scale)),
        ⟨some (.fin v), .fin 0, n + 1⟩) := by
  rw [List.replicate_succ, eRun, runDet_cons,
    eFirstStep alpha threshold scale minStd v]
  simp only [Option.some_bind]
  rw [eConstRun alpha threshold scale minStd v h3 n 1]
  simp [Nat.add_comm]

/-- Witness for the amended C2 at a concrete configuration. -/
theorem C2_witness :
    (0 : ℝ) < 1 / 5 ∧ (1 / 5 : ℝ) ≤ 1 ∧ (0 : ℝ) < 1 / 1000000 ∧
    eRun ⟨1 / 5, 3, 1, 1 / 1000000, 0⟩ (List.replicate 2 (.fin 7)) =
      some (0 :: List.replicate 1
          (logisticScore (some (.fin 0)) 3 (some 1)),
        ⟨some (.fin 7), .fin 0, 2⟩) :=
  ⟨by norm_num, by norm_num, by norm_num,
    C2_amended (1 / 5) 3 1 (1 / 1000000) 7 1 (by norm_num) (by norm_num)
      (by norm_num)⟩

/-- C2 counterexample: with the default configuration
(`alpha = 0.2, threshold = 3, scale = 1, minStd = 1e-6`) and probation
`0`, the second score on the constant stream `1, 1` is `1/(1+e^3)`,
which is not `0.0` (variance does stay `0`, but `logisticScore(0, 3, 1)`
is about `0.047`). -/
theorem C2_counterexample :
    (eRun ⟨1 / 5, 3, 1, 1 / 1000000, 0⟩ [.fin 1, .fin 1]).map
        (fun p => p.1[1]?) = some (some (1 / (1 + Real.exp 3))) ∧
    1 / (1 + Real.exp 3) ≠ (0 : ℝ) := by
  have heval : eRun ⟨1 / 5, 3, 1, 1 / 1000000, 0⟩ [.fin 1, .fin 1] =
      some ([0, 1 / (1 + Real.exp 3)], ⟨some (.fin 1), .fin 0, 2⟩) := by
    norm_num [eRun, runDet, EwmaDetector.handleRecord, eScoreOnly, eUpdate,
      ewmaInit, EFloat.sub, EFloat.add, EFloat.neg, EFloat.mul, EFloat.eabs,
      EFloat.ediv, EFloat.esqrt, EFloat.flt, logisticScore, effScale,
      Real.sqrt_zero]
  constructor
  · rw [heval]
    rfl
  · have h : (0 : ℝ) < 1 / (1 + Real.exp 3) := by positivity
    exact ne_of_gt h

/-- C9 counterexample: with `windowSize = 1` but `minStd = 0`, the
second record of the constant stream `1, 1` hits a zero variance whose
std is not floored, and the z-score division raises
(`ZeroDivisionError`): `handleRecord` is not total under the claim's
preconditions alone. -/
theorem C9_counterexample :
    1 ≤ (⟨1, 3, 1, 0, 0⟩ : ZCfg).windowSize ∧
    zRun ⟨1, 3, 1, 0, 0⟩ [.fin 1, .fin 1] = none := by
  constructor
  · norm_num
  · norm_num [zRun, runDet, ZScoreDetector.handleRecord, zScoreOnly, winInit,
      pushWin, esum, EFloat.ediv, EFloat.esqrt, EFloat.sub, EFloat.add,
      EFloat.neg, EFloat.mul, EFloat.eabs, EFloat.flt, Real.sqrt_zero]

/-- `varSafe` is closed under Python float addition. -/
theorem varSafe_add {a b : EFloat} (ha : varSafe a) (hb : varSafe b) :
    varSafe (a.add b) := by
  rcases ha with ha | ha | ⟨x, hx, ha⟩ <;>
    rcases hb with hb | hb | ⟨y, hy, hb⟩ <;> subst ha <;> subst hb <;>
    first
      | exact Or.inl rfl
      | exact Or.inr (Or.inl rfl)
      | exact Or.inr (Or.inr ⟨x + y, by linarith, rfl⟩)

/-- The square of any Python float is `varSafe`. -/
theorem varSafe_mul_self (t : EFloat) : varSafe (t.mul t) := by
  cases t with
  | nan => exact Or.inl rfl
  | inf => exact Or.inr (Or.inl rfl)
  | ninf => exact Or.inr (Or.inl rfl)
  | fin a => exact Or.inr (Or.inr ⟨a * a, mul_self_nonneg a, rfl⟩)

/-- Folding `varSafe` summands onto a `varSafe` accumulator stays
`varSafe`. -/
theorem varSafe_foldl :
    ∀ (l : List EFloat), (∀ e ∈ l, varSafe e) → ∀ acc, varSafe acc →
      varSafe (l.foldl EFloat.add acc) := by
  intro l
  induction l with
  | nil => intro _ acc hacc; exact hacc
  | cons e t ih =>
      intro h acc hacc
      exact ih (fun x hx => h x (List.mem_cons_of_mem e hx)) (acc.add e)
        (varSafe_add hacc (h e (List.mem_cons_self e t)))

/-- The Python `sum` of `varSafe` values is `varSafe`. -/
theorem varSafe_esum (l : List EFloat) (h : ∀ e ∈ l, varSafe e) :
    varSafe (esum l) :=
  varSafe_foldl l h (.fin 0) (Or.inr (Or.inr ⟨0, le_refl 0, rfl⟩))

/-- Division by a nonzero finite float never raises. -/
theorem ediv_fin_total (a : EFloat) {n : ℝ} (hn : n ≠ 0) :
    ∃ r, a.ediv (.fin n) = some r := by
  cases a <;> simp [EFloat.ediv, hn]

/-- Division of a `varSafe` value by a positive finite float never
raises and stays `varSafe`. -/
theorem ediv_pos_total {a : EFloat} {n : ℝ} (hn : 0 < n) (ha : varSafe a) :
    ∃ r, a.ediv (.fin n) = some r ∧ varSafe r := by
  rcases ha with ha | ha | ⟨x, hx, ha⟩ <;> subst ha
  · exact ⟨.nan, by simp [EFloat.ediv, hn.ne'], Or.inl rfl⟩
  · exact ⟨.inf, by simp [EFloat.ediv, hn.ne', hn], Or.inr (Or.inl rfl)⟩
  · exact ⟨.fin (x / n), by simp [EFloat.ediv, hn.ne'],
      Or.inr (Or.inr ⟨x / n, div_nonneg hx hn.le, rfl⟩)⟩

/-- `math.sqrt` never raises on a `varSafe` value, and its result is
again `varSafe`. -/
theorem esqrt_total {a : EFloat} (ha : varSafe a) :
    ∃ r, a.esqrt = some r ∧ varSafe r := by
  rcases ha with ha | ha | ⟨x, hx, ha⟩ <;> subst ha
  · exact ⟨.nan, rfl, Or.inl rfl⟩
  · exact ⟨.inf, rfl, Or.inr (Or.inl rfl)⟩
  · exact ⟨.fin (Real.sqrt x), by simp [EFloat.esqrt, not_lt.mpr hx],
      Or.inr (Or.inr ⟨Real.sqrt x, Real.sqrt_nonneg x, rfl⟩)⟩

/-- Flooring a `varSafe` std to a positive minimum yields a divisor that
is never exactly zero. -/
theorem floor_divSafe {std0 : EFloat} {m : ℝ} (hm : 0 < m)
    (h : varSafe std0) :
    divSafe (if EFloat.flt std0 (.fin m) then EFloat.fin m else std0) := by
  rcases h with h | h | ⟨x, hx, h⟩ <;> subst h
  · simp only [EFloat.flt, Bool.false_eq_true, if_neg, ite_false]
    exact Or.inl rfl
  · simp only [EFloat.flt, Bool.false_eq_true, if_neg, ite_false]
    exact Or.inr (Or.inl rfl)
  · by_cases hlt : x < m
    · simp only [EFloat.flt, decide_eq_true_eq, hlt, if_true]
      exact Or.inr (Or.inr ⟨m, hm, rfl⟩)
    · simp only [EFloat.flt, decide_eq_true_eq, hlt, if_false]
      exact Or.inr (Or.inr ⟨x, lt_of_lt_of_le hm (not_lt.mp hlt), rfl⟩)

/-- Division by a `divSafe` divisor never raises. -/
theorem ediv_divSafe_total (a : EFloat) {d : EFloat} (hd : divSafe d) :
    ∃ r, a.ediv d = some r := by
  rcases hd with hd | hd | ⟨x, hx, hd⟩ <;> subst hd
  · cases a <;> simp [EFloat.ediv]
  · cases a <;> simp [EFloat.ediv]
  · exact ediv_fin_total a hx.ne'

/-- The absolute value of any Python float is `varSafe`. -/
theorem eabs_varSafe (e : EFloat) : varSafe e.eabs := by
  cases e with
  | nan => exact Or.inl rfl
  | inf => exact Or.inr (Or.inl rfl)
  | ninf => exact Or.inr (Or.inl rfl)
  | fin a => exact Or.inr (Or.inr ⟨|a|, abs_nonneg a, rfl⟩)

/-- The fold inside `pyMax` returns the accumulator or a list element. -/
theorem pyMax_foldl_mem (t : List EFloat) :
    ∀ acc, t.foldl (fun acc x => if EFloat.flt acc x then x else acc) acc = acc ∨
      t.foldl (fun acc x => if EFloat.flt acc x then x else acc) acc ∈ t := by
  induction t with
  | nil => intro acc; exact Or.inl rfl
  | cons y ys ih =>
      intro acc
      simp only [List.foldl_cons]
      rcases ih (if EFloat.flt acc y then y else acc) with h | h
      · rw [h]
        by_cases hc : EFloat.flt acc y
        · rw [if_pos hc]
          exact Or.inr (List.mem_cons_self y ys)
        · rw [if_neg hc]
          exact Or.inl rfl
      · exact Or.inr (List.mem_cons_of_mem y h)

/-- On a nonempty list, `pyMax` never raises and returns an element of
the list. -/
theorem pyMax_total (l : List EFloat) (h : l ≠ []) :
    ∃ m, pyMax l = some m ∧ m ∈ l := by
  cases l with
  | nil => exact absurd rfl h
  | cons x t =>
      refine ⟨_, rfl, ?_⟩
      rcases pyMax_foldl_mem t x with h2 | h2
      · rw [h2]; exact List.mem_cons_self x t
      · exact List.mem_cons_of_mem x h2

/-- The z-score computation never raises when the window is governed by
`windowSize ≥ 1` and `minStd > 0`, whatever floats (including `nan` and
infinities) are in the window. -/
theorem zScoreOnly_total (cfg : ZCfg) (hw : 1 ≤ cfg.windowSize)
    (hm : 0 < cfg.minStd) (s : WinState) (v : EFloat) :
    ∃ sc, zScoreOnly cfg s v = some sc := by
  by_cases hfull : cfg.windowSize ≤ s.window.length
  · have hlen : 1 ≤ s.window.length := le_trans hw hfull
    have hn : (0 : ℝ) < (s.window.length : ℝ) := by
      exact_mod_cast Nat.lt_of_lt_of_le Nat.zero_lt_one hlen
    obtain ⟨mean, hmean⟩ := ediv_fin_total (esum s.window) hn.ne'
    have hvs : varSafe
        (esum (s.window.map fun x => (x.sub mean).mul (x.sub mean))) := by
      apply varSafe_esum
      intro e he
      rcases List.mem_map.mp he with ⟨x, _, hxe⟩
      rw [← hxe]
      exact varSafe_mul_self _
    obtain ⟨variance, hvar, hvarS⟩ := ediv_pos_total hn hvs
    obtain ⟨std0, hstd0, hstd0S⟩ := esqrt_total hvarS
    obtain ⟨q, hq⟩ := ediv_divSafe_total (v.sub mean) (floor_divSafe hm hstd0S)
    refine ⟨logisticScore (some q.eabs) cfg.threshold (some cfg.scale), ?_⟩
    simp only [zScoreOnly]
    rw [if_pos hfull, hmean]
    simp only [Option.bind_eq_bind, Option.some_bind]
    rw [hvar]
    simp only [Option.bind_eq_bind, Option.some_bind]
    rw [hstd0]
    simp only [Option.bind_eq_bind, Option.some_bind]
    rw [hq]
    rfl
  · exact ⟨0, by simp [zScoreOnly, hfull]⟩

/-- The adaptive-threshold computation never raises when
`windowSize ≥ 1` and `minDev > 0`. -/
theorem aScoreOnly_total (cfg : ACfg) (hw : 1 ≤ cfg.windowSize)
    (hm : 0 < cfg.minDev) (s : WinState) (v : EFloat) :
    ∃ sc, aScoreOnly cfg s v = some sc := by
  by_cases hfull : cfg.windowSize ≤ s.window.length
  · have hlen : 1 ≤ s.window.length := le_trans hw hfull
    have hn : (0 : ℝ) < (s.window.length : ℝ) := by
      exact_mod_cast Nat.lt_of_lt_of_le Nat.zero_lt_one hlen
    obtain ⟨mean, hmean⟩ := ediv_fin_total (esum s.window) hn.ne'
    have hwne : s.window ≠ [] := by
      intro hc
      rw [hc] at hlen
      simp at hlen
    have hmne : s.window.map (fun x => (x.sub mean).eabs) ≠ [] := by
      intro hc
      exact hwne (List.map_eq_nil_iff.mp hc)
    obtain ⟨maxDev0, hmax, hmem⟩ := pyMax_total _ hmne
    have hmaxS : varSafe maxDev0 := by
      rcases List.mem_map.mp hmem with ⟨x, _, hxe⟩
      rw [← hxe]
      exact eabs_varSafe _
    obtain ⟨q, hq⟩ :=
      ediv_divSafe_total (v.sub mean).eabs (floor_divSafe hm hmaxS)
    refine ⟨logisticScore (some q) cfg.sensitivity (some cfg.scale), ?_⟩
    simp only [aScoreOnly]
    rw [if_pos hfull, hmean]
    simp only [Option.bind_eq_bind, Option.some_bind]
    rw [hmax]
    simp only [Option.bind_eq_bind, Option.some_bind]
    rw [hq]
    rfl
  · exact ⟨0, by simp [aScoreOnly, hfull]⟩

/-- The EWMA score computation never raises when `minStd > 0` and the
variance state is `varSafe`. -/
theorem eScoreOnly_total (cfg : ECfg) (hm : 0 < cfg.minStd) (s : EwmaState)
    (hvar : varSafe s.variance) (v : EFloat) :
    ∃ sc, eScoreOnly cfg s v = some sc := by
  cases hew : s.ewma with
  | none => exact ⟨0, by simp [eScoreOnly, hew]⟩
  | some w =>
      obtain ⟨std0, hstd0, hstd0S⟩ := esqrt_total hvar
      obtain ⟨q, hq⟩ :=
        ediv_divSafe_total (v.sub w).eabs (floor_divSafe hm hstd0S)
      refine ⟨logisticScore (some q) cfg.threshold (some cfg.scale), ?_⟩
      simp only [eScoreOnly, hew]
      rw [hstd0]
      simp only [Option.bind_eq_bind, Option.some_bind]
      rw [hq]
      rfl

/-- With `0 < alpha`, the term `alpha * diff * diff` is `varSafe` for
any float `diff`. -/
theorem varSafe_alpha_sq {alpha : ℝ} (h : 0 < alpha) (d : EFloat) :
    varSafe (((EFloat.fin alpha).mul d).mul d) := by
  cases d with
  | nan => exact Or.inl rfl
  | inf =>
      have h1 : (EFloat.fin alpha).mul .inf = .inf := by
        simp [EFloat.mul, h.ne', h]
      rw [h1]
      exact Or.inr (Or.inl rfl)
  | ninf =>
      have h1 : (EFloat.fin alpha).mul .ninf = .ninf := by
        simp [EFloat.mul, h.ne', h]
      rw [h1]
      exact Or.inr (Or.inl rfl)
  | fin x =>
      exact Or.inr (Or.inr ⟨alpha * x * x, by nlinarith [mul_self_nonneg x], rfl⟩)

/-- Multiplying a `varSafe` value by a non-negative finite scalar stays
`varSafe`. -/
theorem varSafe_scale {c : ℝ} (hc : 0 ≤ c) {a : EFloat} (ha : varSafe a) :
    varSafe ((EFloat.fin c).mul a) := by
  rcases ha with ha | ha | ⟨x, hx, ha⟩ <;> subst ha
  · exact Or.inl rfl
  · by_cases hc0 : c = 0
    · subst hc0
      exact Or.inl (by simp [EFloat.mul])
    · exact Or.inr (Or.inl (by
        simp [EFloat.mul, hc0, lt_of_le_of_ne hc (Ne.symm hc0)]))
  · exact Or.inr (Or.inr ⟨c * x, mul_nonneg hc hx, rfl⟩)

/-- The EWMA variance update preserves `varSafe` when `0 < alpha ≤ 1`. -/
theorem eUpdate_varSafe (cfg : ECfg) (h1 : 0 < cfg.alpha)
    (h2 : cfg.alpha ≤ 1) (s : EwmaState) (v : EFloat)
    (hs : varSafe s.variance) : varSafe (eUpdate cfg s v).variance := by
  cases hew : s.ewma with
  | none =>
      have : (eUpdate cfg s v).variance = .fin 0 := by simp [eUpdate, hew]
      rw [this]
      exact Or.inr (Or.inr ⟨0, le_refl 0, rfl⟩)
  | some w =>
      have heq : (eUpdate cfg s v).variance =
          (EFloat.fin (1 - cfg.alpha)).mul
            (s.variance.add
              (((EFloat.fin cfg.alpha).mul (v.sub w)).mul (v.sub w))) := by
        simp [eUpdate, hew]
      rw [heq]
      exact varSafe_scale (by linarith)
        (varSafe_add hs (varSafe_alpha_sq h1 (v.sub w)))

/-- A run of an always-succeeding step function succeeds. -/
theorem runDet_total {S : Type} (step : S → EFloat → Option (ℝ × S))
    (hstep : ∀ s v, ∃ r, step s v = some r) :
    ∀ (xs : List EFloat) (s : S), ∃ out, runDet step s xs = some out := by
  intro xs
  induction xs with
  | nil => intro s; exact ⟨([], s), rfl⟩
  | cons v rest ih =>
      intro s
      obtain ⟨r, hr⟩ := hstep s v
      obtain ⟨out, hout⟩ := ih r.2
      refine ⟨(r.1 :: out.1, out.2), ?_⟩
      rw [runDet_cons, hr]
      simp only [Option.some_bind]
      rw [hout]
      rfl

/-- A run of a step function that succeeds and preserves an invariant
succeeds from any state satisfying the invariant. -/
theorem runDet_total_inv {S : Type} (step : S → EFloat → Option (ℝ × S))
    (P : S → Prop)
    (hstep : ∀ s v, P s → ∃ r, step s v = some r ∧ P r.2) :
    ∀ (xs : List EFloat) (s : S), P s → ∃ out, runDet step s xs = some out := by
  intro xs
  induction xs with
  | nil => intro s _; exact ⟨([], s), rfl⟩
  | cons v rest ih =>
      intro s hP
      obtain ⟨r, hr, hP2⟩ := hstep s v hP
      obtain ⟨out, hout⟩ := ih r.2 hP2
      refine ⟨(r.1 :: out.1, out.2), ?_⟩
      rw [runDet_cons, hr]
      simp only [Option.some_bind]
      rw [hout]
      rfl

/-- C9 amended: with the additional preconditions `minStd > 0`
(`minDev > 0` for the adaptive detector), `handleRecord` is total for
all three detectors: every run over arbitrary float inputs — `nan` and
infinities included — returns a score list without raising. -/
theorem C9_amended_totality :
    (∀ (cfg : ZCfg), 1 ≤ cfg.windowSize → 0 < cfg.minStd →
      ∀ xs : List EFloat, ∃ out, zRun cfg xs = some out) ∧
    (∀ (cfg : ECfg), 0 < cfg.alpha → cfg.alpha ≤ 1 → 0 < cfg.minStd →
      ∀ xs : List EFloat, ∃ out, eRun cfg xs = some out) ∧
    (∀ (cfg : ACfg), 1 ≤ cfg.windowSize → 0 < cfg.minDev →
      ∀ xs : List EFloat, ∃ out, aRun cfg xs = some out) := by
  refine ⟨?_, ?_, ?_⟩
  · intro cfg hw hm xs
    apply runDet_total
    intro s v
    obtain ⟨sc, hsc⟩ := zScoreOnly_total cfg hw hm s v
    exact ⟨_, by rw [ZScoreDetector.handleRecord, hsc]; rfl⟩
  · intro cfg h1 h2 hm xs
    apply runDet_total_inv (EwmaDetector.handleRecord cfg)
      (fun s => varSafe s.variance) ?_ xs ewmaInit
      (Or.inr (Or.inr ⟨0, le_refl 0, rfl⟩))
    intro s v hP
    obtain ⟨sc, hsc⟩ := eScoreOnly_total cfg hm s hP v
    refine ⟨(if s.recordIndex < cfg.probationaryPeriod then 0 else sc,
      eUpdate cfg s v), ?_, ?_⟩
    · rw [EwmaDetector.handleRecord, hsc]
      rfl
    · exact eUpdate_varSafe cfg h1 h2 s v hP
  · intro cfg hw hm xs
    apply runDet_total
    intro s v
    obtain ⟨sc, hsc⟩ := aScoreOnly_total cfg hw hm s v
    exact ⟨_, by rw [AdaptiveThresholdDetector.handleRecord, hsc]; rfl⟩

/-- Witness for the amended C9: a run over `nan` and `inf` inputs
succeeds. -/
theorem C9_witness :
    1 ≤ (⟨1, 3, 1, 1 / 1000000, 0⟩ : ZCfg).windowSize ∧
    (0 : ℝ) < (⟨1, 3, 1, 1 / 1000000, 0⟩ : ZCfg).minStd ∧
    ∃ out, zRun ⟨1, 3, 1, 1 / 1000000, 0⟩ [.nan, .inf] = some out :=
  ⟨by norm_num, by norm_num,
    C9_amended_totality.1 ⟨1, 3, 1, 1 / 1000000, 0⟩ (by norm_num) (by norm_num)
      [.nan, .inf]⟩
